import Mathlib

/-!
Verification of the QR logo-overlay pipeline (qr_logo_overlay.py).

The program is shallowly embedded over exact rational arithmetic:
Python `float` computations are modelled by `ℚ`, Python `round`
(round-half-to-even) by `pyRound`, images by lists of rows of pixels,
and exceptions by `Except OverlayError`.
-/

set_option maxRecDepth 10000

namespace QROverlay

attribute [local semireducible] Rat.add Rat.mul Rat.sub Rat.inv Rat.ofScientific

/-- Python `round` on a rational: round half to even (banker's rounding). -/

def pyRound (q : ℚ) : ℤ :=
  let f := ⌊q⌋
  let r := q - f
  if r < 1/2 then f
  else if 1/2 < r then f + 1
  else if f % 2 = 0 then f else f + 1


/-- `clamp` from the source: `lo if v < lo else hi if v > hi else v`. -/

def clampZ (v lo hi : ℤ) : ℤ :=
  if v < lo then lo else if hi < v then hi else v


/-! ### Pixels and images -/

/-- An RGBA pixel (each channel a byte value in the program). -/

structure RGBA where
  r : ℕ
  g : ℕ
  b : ℕ
  a : ℕ
deriving DecidableEq, Repr


/-- An image: a list of pixel rows. -/

abbrev Img := List (List RGBA)


def imgW (img : List (List α)) : ℕ := (img.headD []).length


def imgH (img : List (List α)) : ℕ := img.length


/-- `img.getpixel((x, y))`; callers always clamp coordinates in range first. -/

def getpixel (img : Img) (x y : ℤ) : RGBA :=
  (img.getD y.toNat []).getD x.toNat ⟨0, 0, 0, 0⟩


/-- `luminance_rgb`: `0.2126*r + 0.7152*g + 0.0722*b` (BT.709-like weights). -/

def luminance_rgb (r g b : ℕ) : ℚ :=
  (2126 * r + 7152 * g + 722 * b : ℚ) / 10000


/-- Modelled from the spec: the grayscale conversion `to_gray` delegates to the
external image codec (PIL `alpha_composite` over an opaque white background
followed by conversion to single-channel luminance with the standard
299/587/114 weighting); those collaborator internals are not part of the
repository source, so they are modelled from §4.1 of the spec. -/

def to_gray (img : Img) : List (List ℕ) :=
  img.map fun row =>
    row.map fun p =>
      let r := (pyRound ((p.r * p.a + 255 * (255 - p.a) : ℚ) / 255)).toNat
      let g := (pyRound ((p.g * p.a + 255 * (255 - p.a) : ℚ) / 255)).toNat
      let b := (pyRound ((p.b * p.a + 255 * (255 - p.a) : ℚ) / 255)).toNat
      (pyRound ((299 * r + 587 * g + 114 * b : ℚ) / 1000)).toNat


/-! ### Otsu thresholding -/

/-- State of the `otsu_threshold` loop: running sums, the best variance and
threshold so far, and whether the loop has been exited by `break`. -/

structure OtsuState where
  sum_b : ℕ
  w_b : ℕ
  max_var : ℚ
  thresh : ℕ
  done : Bool
deriving DecidableEq, Repr


/-- One iteration of the `for t in range(256)` loop of `otsu_threshold`. -/

def otsuStep (hist : ℕ → ℕ) (total sumTotal : ℕ) (s : OtsuState) (t : ℕ) :
    OtsuState :=
  if s.done then s
  else
    let w_b := s.w_b + hist t
    if w_b = 0 then { s with w_b := w_b }
    else
      let w_f := total - w_b
      if w_f = 0 then { s with w_b := w_b, done := true }
      else
        let sum_b := s.sum_b + t * hist t
        let m_b : ℚ := (sum_b : ℚ) / w_b
        let m_f : ℚ := ((sumTotal : ℚ) - sum_b) / w_f
        let v : ℚ := (w_b : ℚ) * w_f * (m_b - m_f) ^ 2
        if s.max_var < v then ⟨sum_b, w_b, v, t, false⟩
        else ⟨sum_b, w_b, s.max_var, s.thresh, false⟩


/-- `otsu_threshold` expressed over a 256-bin histogram (the function first
builds the histogram from the grayscale array; `total` is the pixel count,
which for byte-valued pixels equals the histogram mass). -/

def otsu_from_hist (hist : ℕ → ℕ) : ℕ :=
  let total := ∑ i in Finset.range 256, hist i
  let sumTotal := ∑ i in Finset.range 256, i * hist i
  ((List.range 256).foldl (otsuStep hist total sumTotal) ⟨0, 0, -1, 128, false⟩).thresh


/-- The 256-bin histogram of a grayscale array (`np.histogram(gray, 256, (0,256))`). -/

def histOf (g : List (List ℕ)) : ℕ → ℕ :=
  fun i => (g.map fun row => row.countP (fun v => v = i)).sum


/-- `otsu_threshold` on a grayscale array. -/

def otsu_threshold (g : List (List ℕ)) : ℕ :=
  otsu_from_hist (histOf g)


/-! ### QR geometry -/

/-- The failure conditions raised by the pipeline (`ValueError`s, plus the
`ZeroDivisionError` that `geo_from_exact_dims` hits when `n + 2*qz = 0`). -/

inductive OverlayError where
  | invalidInput
  | zeroDivision
  | noModulesDetected
  | noDarkModulesDetected
  | moduleSizeUnavailable
  | invalidModuleCount
deriving DecidableEq, Repr


/-- The `QRGeometry` dataclass. -/

structure QRGeometry where
  n_modules : ℕ
  qz_modules : ℕ
  content_box : ℤ × ℤ × ℤ × ℤ
  module_px : ℚ
  thresh : ℕ
  dark_is_lt : Bool
deriving DecidableEq, Repr


/-- `geo_from_exact_dims` (override mode); the image enters only through its
size `(W, H)`.  A non-square image raises `ValueError`; `n + 2*qz = 0` makes
`W / total` raise `ZeroDivisionError`. -/

def geo_from_exact_dims (W H n qz : ℕ) : Except OverlayError QRGeometry :=
  if W ≠ H then .error .invalidInput
  else
    let total := n + 2 * qz
    if total = 0 then .error .zeroDivision
    else
      let module_px : ℚ := (W : ℚ) / total
      let left := pyRound ((qz : ℚ) * module_px)
      let top := pyRound ((qz : ℚ) * module_px)
      let right := pyRound (((qz : ℚ) + n) * module_px) - 1
      let bottom := pyRound (((qz : ℚ) + n) * module_px) - 1
      .ok ⟨n, qz, (left, top, right, bottom), module_px, 128, true⟩


/-- Number of set pixels of a boolean mask over the grayscale array. -/

def countPix (g : List (List ℕ)) (p : ℕ → Bool) : ℕ :=
  (g.map fun row => row.countP p).sum


/-- The `(x, y)` coordinates of the set pixels of a mask (`np.where`). -/

def maskCoords (g : List (List ℕ)) (p : ℕ → Bool) : List (ℕ × ℕ) :=
  g.enum.flatMap fun yr =>
    yr.2.enum.filterMap fun xv => if p xv.2 then some (xv.1, yr.1) else none


/-- Minimum of a list of naturals (`np.min`; only used on non-empty lists). -/

def listMin : List ℕ → ℕ
  | [] => 0
  | x :: xs => xs.foldl min x


/-- Maximum of a list of naturals (`np.max`; only used on non-empty lists). -/

def listMax : List ℕ → ℕ
  | [] => 0
  | x :: xs => xs.foldl max x


/-- The run-length loop of `detect_qr_geometry`: `cur`/`cnt` walk the row and
each completed run of `True` values appends its length. -/

def rleGo (cur : Bool) (cnt : ℕ) (acc : List ℕ) : List Bool → List ℕ
  | [] => if cur then acc ++ [cnt] else acc
  | v :: vs =>
    if v = cur then rleGo cur (cnt + 1) acc vs
    else rleGo v 1 (if cur then acc ++ [cnt] else acc) vs


/-- Lengths of the `True` runs of a boolean row (`runs` in the source). -/

def blackRuns : List Bool → List ℕ
  | [] => []
  | v :: vs => rleGo v 1 [] vs


/-- `np.median` on a list of integers: sort; middle element if the length is
odd, else the mean of the two middle elements. -/

def npMedian (l : List ℕ) : ℚ :=
  let s := l.insertionSort (· ≤ ·)
  if l.length % 2 = 1 then ((s.getD (l.length / 2) 0 : ℕ) : ℚ)
  else (((s.getD (l.length / 2 - 1) 0 : ℕ) : ℚ) + ((s.getD (l.length / 2) 0 : ℕ) : ℚ)) / 2


/-- The module-count derivation of `detect_qr_geometry`: width and height
counts by rounding the content extents divided by the module size, the final
count being the width count when they agree and the rounded average
otherwise. -/

def moduleCountFrom (content_w content_h : ℤ) (module_px : ℚ) : ℤ :=
  let n_w := pyRound ((content_w : ℚ) / module_px)
  let n_h := pyRound ((content_h : ℚ) / module_px)
  if n_w ≠ n_h then pyRound (((n_w : ℚ) + (n_h : ℚ)) / 2) else n_w


/-- The final stage of `detect_qr_geometry` once the content box and the
module size estimate are fixed: derive the module counts, validate them, and
assemble the geometry together with the quiet-zone estimate. -/

def finishGeo (W H left top right bottom : ℕ) (module_px : ℚ) (t : ℕ)
    (use_lt : Bool) : Except OverlayError QRGeometry :=
  let n : ℤ := moduleCountFrom ((right : ℤ) - left + 1) ((bottom : ℤ) - top + 1) module_px
  if n ≤ 0 then .error .invalidModuleCount
  else
    let qz_px : ℤ :=
      min (min (left : ℤ) (top : ℤ)) (min ((W : ℤ) - 1 - right) ((H : ℤ) - 1 - bottom))
    let qz_modules : ℤ := max 0 (pyRound ((qz_px : ℚ) / module_px))
    .ok ⟨n.toNat, qz_modules.toNat, ((left : ℤ), (top : ℤ), (right : ℤ), (bottom : ℤ)),
         module_px, t, use_lt⟩


/-- The tail of `detect_qr_geometry` after the dark mask has been fixed:
bounding box, mid-row run-length module-size estimate, then `finishGeo`.
`p` is the chosen mask predicate and `coords` its set pixels (non-empty
whenever this is reached). -/

def detectFinish (g : List (List ℕ)) (W H : ℕ) (t : ℕ) (use_lt : Bool)
    (p : ℕ → Bool) (coords : List (ℕ × ℕ)) : Except OverlayError QRGeometry :=
  let xs := coords.map Prod.fst
  let ys := coords.map Prod.snd
  let left := listMin xs
  let right := listMax xs
  let top := listMin ys
  let bottom := listMax ys
  let mid_y := (top + bottom) / 2
  let row := (((g.getD mid_y []).map p).take (right + 1)).drop left
  let runs := blackRuns row
  if runs = [] then .error .moduleSizeUnavailable
  else
    let runs_sorted := runs.insertionSort (· ≤ ·)
    let lower := runs_sorted.take (max 1 (runs_sorted.length / 2))
    let module_px : ℚ := npMedian lower
    finishGeo W H left top right bottom module_px t use_lt


/-- The threshold used by inference mode: the caller's, else Otsu. -/

def detectThreshold (g : List (List ℕ)) (qr_threshold : Option ℕ) : ℕ :=
  qr_threshold.getD (otsu_threshold g)


/-- The mask-dependent tail of `detect_qr_geometry`: build the chosen mask's
pixel list, apply the (dead in practice) widened-threshold retry when it is
empty, and hand off to `detectFinish`.  `use_lt` selects the `< t` polarity. -/

def detectStage2 (g : List (List ℕ)) (W H t : ℕ) (use_lt : Bool) :
    Except OverlayError QRGeometry :=
  let p : ℕ → Bool := cond use_lt (fun v => v < t) (fun v => t < v)
  let coords := maskCoords g p
  if coords = [] then
    let p2 : ℕ → Bool :=
      cond use_lt (fun v => v < min 255 (t + 10)) (fun v => t - 10 < v)
    let coords2 := maskCoords g p2
    if coords2 = [] then .error .noDarkModulesDetected
    else detectFinish g W H t use_lt p2 coords2
  else detectFinish g W H t use_lt p coords


/-- `detect_qr_geometry` (inference mode), over the grayscale array produced
by `to_gray` (the conversion is applied by the caller). -/

def detect_qr_geometry (g : List (List ℕ)) (qr_threshold : Option ℕ) :
    Except OverlayError QRGeometry :=
  let W := imgW g
  let H := imgH g
  let t := detectThreshold g qr_threshold
  let c_lt := countPix g (fun v => v < t)
  let c_gt := countPix g (fun v => t < v)
  if c_lt = 0 ∧ c_gt = 0 then .error .noModulesDetected
  else detectStage2 g W H t (decide (c_gt ≤ c_lt ∧ 0 < c_lt))


/-! ### Module sampling and finder classification -/

/-- `sample_qr_module_dark` (the unused threshold parameter is dropped):
sample the module's center pixel, convert with the BT.601-like weighting and
decide darkness from `geo.thresh` and `geo.dark_is_lt`. -/

def sample_qr_module_dark (qr : Img) (geo : QRGeometry) (row col : ℕ) : Bool :=
  let W := imgW qr
  let H := imgH qr
  let box := geo.content_box
  let n := geo.n_modules
  let module_w : ℚ := ((box.2.2.1 : ℚ) - box.1 + 1) / n
  let module_h : ℚ := ((box.2.2.2 : ℚ) - box.2.1 + 1) / n
  let cx := clampZ (pyRound ((box.1 : ℚ) + ((col : ℚ) + 1/2) * module_w)) 0 ((W : ℤ) - 1)
  let cy := clampZ (pyRound ((box.2.1 : ℚ) + ((row : ℚ) + 1/2) * module_h)) 0 ((H : ℤ) - 1)
  let px := getpixel qr cx cy
  let gray := pyRound ((299 * px.r + 587 * px.g + 114 * px.b : ℚ) / 1000)
  if geo.dark_is_lt then decide (gray < geo.thresh) else decide ((geo.thresh : ℤ) < gray)


/-- `in_finder`: inside any of the three 7×7 finder squares. -/

def in_finder (n : ℕ) (r c : ℕ) : Bool :=
  decide (r ≤ 6 ∧ c ≤ 6) ||
  decide (r ≤ 6 ∧ (n : ℤ) - 7 ≤ c ∧ (c : ℤ) ≤ (n : ℤ) - 1) ||
  decide ((n : ℤ) - 7 ≤ r ∧ (r : ℤ) ≤ (n : ℤ) - 1 ∧ c ≤ 6)


/-- `cell_bounds`: pixel-aligned inclusive bounds of a module cell. -/

def cell_bounds (Lw Lh total_modules qz row col : ℕ) : ℤ × ℤ × ℤ × ℤ :=
  let f : ℚ := 1 / total_modules
  let Ctot : ℕ := col + qz
  let Rtot : ℕ := row + qz
  let x0 := pyRound ((Ctot : ℚ) * f * Lw)
  let y0 := pyRound ((Rtot : ℚ) * f * Lh)
  let x1 := pyRound (((Ctot : ℚ) + 1) * f * Lw) - 1
  let y1 := pyRound (((Rtot : ℚ) + 1) * f * Lh) - 1
  (x0, y0, x1, y1)


/-! ### Logo color picking -/

/-- `center_xy` inside `pick_logo_color`: proportional center of a total-grid
cell mapped into logo pixel space, clamped in bounds. -/

def center_xy (total lw lh : ℕ) (r c : ℤ) : ℤ × ℤ :=
  let f : ℚ := 1 / total
  let cx := pyRound (((c : ℚ) + 1/2) * f * lw)
  let cy := pyRound (((r : ℚ) + 1/2) * f * lh)
  (clampZ cx 0 ((lw : ℤ) - 1), clampZ cy 0 ((lh : ℤ) - 1))


/-- `is_dark_rgba`: transparent (alpha < 10) counts as light, else compare
luminance against the logo threshold. -/

def is_dark_rgba (px : RGBA) (thr : ℕ) : Bool :=
  if px.a < 10 then false else decide (luminance_rgb px.r px.g px.b < thr)


/-- The logo pixel at the center of total-grid cell `(r, c)`. -/

def centerPixAt (logo : Img) (lw lh total : ℕ) (r c : ℤ) : RGBA :=
  let xy := center_xy total lw lh r c
  getpixel logo xy.1 xy.2


/-- `range(-radius, radius+1)` as a list of integers. -/

def intRange (radius : ℕ) : List ℤ :=
  (List.range (2 * radius + 1)).map fun i : ℕ => (i : ℤ) - (radius : ℤ)


/-- The neighbor offsets `(dr, dc, dr²+dc²)` in generation order (row-major:
`dc` innermost), origin excluded. -/

def offset_list (radius : ℕ) : List (ℤ × ℤ × ℤ) :=
  (intRange radius).flatMap fun dr =>
    (intRange radius).filterMap fun dc =>
      if dr = 0 ∧ dc = 0 then none else some (dr, dc, dr * dr + dc * dc)


/-- Comparison by squared distance, the sort key of the offset list. -/

def offLE (a b : ℤ × ℤ × ℤ) : Prop := a.2.2 ≤ b.2.2


instance : DecidableRel offLE := fun a b => inferInstanceAs (Decidable (a.2.2 ≤ b.2.2))


instance : IsTotal (ℤ × ℤ × ℤ) offLE := ⟨fun a b => le_total a.2.2 b.2.2⟩


instance : IsTrans (ℤ × ℤ × ℤ) offLE := ⟨fun _ _ _ => le_trans⟩


/-- `offsets.sort(key=d²)`: a stable sort by squared distance. -/

def sorted_offsets (radius : ℕ) : List (ℤ × ℤ × ℤ) :=
  (offset_list radius).insertionSort offLE


/-- The body of the neighbor loop of `pick_logo_color`: skip out-of-bounds
cells, and return the neighbor's center pixel when its raw luminance
classification matches and its alpha is at least 10. -/

def neighborCheck (logo : Img) (lw lh total : ℕ) (want_dark : Bool) (thr : ℕ)
    (R C : ℤ) (o : ℤ × ℤ × ℤ) : Option RGBA :=
  let nr := R + o.1
  let nc := C + o.2.1
  if 0 ≤ nr ∧ nr < total ∧ 0 ≤ nc ∧ nc < total then
    let npix := centerPixAt logo lw lh total nr nc
    if (decide (luminance_rgb npix.r npix.g npix.b < thr) = want_dark) ∧ 10 ≤ npix.a
    then some npix else none
  else none


/-- `pick_logo_color`: return the module's center logo pixel when its
classification matches the desired darkness, else the first matching neighbor
by increasing squared distance. -/

def pick_logo_color (logo : Img) (lw lh total qz : ℕ) (row col : ℕ)
    (want_dark : Bool) (thr : ℕ) (radius : ℕ) : Option RGBA :=
  let R : ℤ := (row : ℤ) + qz
  let C : ℤ := (col : ℤ) + qz
  let px := centerPixAt logo lw lh total R C
  if is_dark_rgba px thr = want_dark then some px
  else (sorted_offsets radius).findSome? (neighborCheck logo lw lh total want_dark thr R C)


/-! ### Color synthesis and the compositing loop -/

/-- `adjust_color_toward`: push each channel toward 0 (dark) or 255 (light)
by `strength`, then clamp to `[0, 255]`. -/

def adjust_color_toward (rgb : ℕ × ℕ × ℕ) (toward_dark : Bool) (strength : ℚ) :
    ℕ × ℕ × ℕ :=
  let r' : ℤ :=
    if toward_dark then pyRound ((rgb.1 : ℚ) * (1 - strength))
    else pyRound ((rgb.1 : ℚ) + ((255 : ℚ) - rgb.1) * strength)
  let g' : ℤ :=
    if toward_dark then pyRound ((rgb.2.1 : ℚ) * (1 - strength))
    else pyRound ((rgb.2.1 : ℚ) + ((255 : ℚ) - rgb.2.1) * strength)
  let b' : ℤ :=
    if toward_dark then pyRound ((rgb.2.2 : ℚ) * (1 - strength))
    else pyRound ((rgb.2.2 : ℚ) + ((255 : ℚ) - rgb.2.2) * strength)
  ((clampZ r' 0 255).toNat, (clampZ g' 0 255).toNat, (clampZ b' 0 255).toNat)


/-- `range(-3, 4)`, the fallback's 7×7 search window coordinates. -/

def range7 : List ℤ := (List.range 7).map fun i : ℕ => (i : ℤ) - 3


/-- The fallback's base pixel: the logo pixel at `(cx, cy)`, or — when it is
near-transparent — the first pixel with alpha ≥ 10 in the clamped 7×7
neighborhood in row-major order, defaulting to opaque black. -/

def synth_base (logo : Img) (lw lh : ℕ) (cx cy : ℤ) : RGBA :=
  let base := getpixel logo cx cy
  if base.a < 10 then
    let cand := range7.flatMap fun dy =>
      range7.map fun dx =>
        getpixel logo (clampZ (cx + dx) 0 ((lw : ℤ) - 1)) (clampZ (cy + dy) 0 ((lh : ℤ) - 1))
    match cand.find? (fun p => 10 ≤ p.a) with
    | some p => p
    | none => ⟨0, 0, 0, 255⟩
  else base


/-- The `pix is None` fallback of the compositing loop: nudge the local base
color toward dark or light with strength 0.40 and attach the overlay alpha. -/

def synth_color (logo : Img) (lw lh total qz : ℕ) (row col : ℕ)
    (want_dark : Bool) (alpha : ℕ) : RGBA :=
  let R : ℤ := (row : ℤ) + qz
  let C : ℤ := (col : ℤ) + qz
  let xy := center_xy total lw lh R C
  let base := synth_base logo lw lh xy.1 xy.2
  let rgb := adjust_color_toward (base.r, base.g, base.b) want_dark (2/5)
  ⟨rgb.1, rgb.2.1, rgb.2.2, alpha⟩


/-- Color resolution for one module: picker result, else synthesized
fallback; the overlay alpha is attached in either case. -/

def resolve_color (logo : Img) (lw lh total qz : ℕ) (row col : ℕ)
    (want_dark : Bool) (thr radius alpha : ℕ) : RGBA :=
  match pick_logo_color logo lw lh total qz row col want_dark thr radius with
  | some p => ⟨p.r, p.g, p.b, alpha⟩
  | none => synth_color logo lw lh total qz row col want_dark alpha


/-- The body of the compositing loop for module `(row, col)`: decide the
desired darkness, resolve a color, and emit the one rectangle that is drawn
(full cell for finder modules, centered mini-square otherwise). -/

def module_op (qr logo : Img) (geo : QRGeometry) (square_frac : ℚ)
    (thr_logo radius alpha : ℕ) (row col : ℕ) : (ℤ × ℤ × ℤ × ℤ) × RGBA :=
  let Lw := imgW logo
  let Lh := imgH logo
  let n := geo.n_modules
  let qz := geo.qz_modules
  let total := n + 2 * qz
  let want_dark := sample_qr_module_dark qr geo row col
  let pix := resolve_color logo Lw Lh total qz row col want_dark thr_logo radius alpha
  if in_finder n row col then (cell_bounds Lw Lh total qz row col, pix)
  else
    let f : ℚ := 1 / total
    let Ctot : ℕ := col + qz
    let Rtot : ℕ := row + qz
    let cx := pyRound (((Ctot : ℚ) + 1/2) * f * Lw)
    let cy := pyRound (((Rtot : ℚ) + 1/2) * f * Lh)
    let side : ℤ := max 1 (pyRound (min ((Lw : ℚ) / total) ((Lh : ℚ) / total) * square_frac))
    let half := side / 2
    let x0 := clampZ (cx - half) 0 ((Lw : ℤ) - 1)
    let y0 := clampZ (cy - half) 0 ((Lh : ℤ) - 1)
    let x1 := clampZ (x0 + side - 1) 0 ((Lw : ℤ) - 1)
    let y1 := clampZ (y0 + side - 1) 0 ((Lh : ℤ) - 1)
    ((x0, y0, x1, y1), pix)


/-- The `(row, col)` iteration space of the compositing loop, in loop order. -/

def gridPairs (n : ℕ) : List (ℕ × ℕ) :=
  (List.range n).flatMap fun r => (List.range n).map fun c => (r, c)


set_option linter.unusedVariables false in

/-- `build_overlay` up to its draw calls: detect or override the geometry,
then produce the geometry together with the list of rectangles painted (one
per module, in loop order).  The saved overlay bitmap is the fold of these
draw operations over an initially fully transparent canvas, so it is a
function of this list alone.  `skip_finders` is accepted exactly as in the
source, which never reads it. -/

def build_overlay_ops (qr logo : Img) (modules_override quiet_override : Option ℕ)
    (square_frac : ℚ) (radius : ℕ) (threshold_logo : ℕ) (threshold_qr : Option ℕ)
    (skip_finders : Bool) (alpha : ℕ) :
    Except OverlayError (QRGeometry × List ((ℤ × ℤ × ℤ × ℤ) × RGBA)) :=
  let geoE :=
    match modules_override, quiet_override with
    | some n, some qz => geo_from_exact_dims (imgW qr) (imgH qr) n qz
    | _, _ => detect_qr_geometry (to_gray qr) threshold_qr
  geoE.map fun geo =>
    (geo, (gridPairs geo.n_modules).map fun rc =>
      module_op qr logo geo square_frac threshold_logo radius alpha rc.1 rc.2)


/-! ### Helper lemmas -/

instance exceptDecEq {ε α : Type _} [DecidableEq ε] [DecidableEq α] :
    DecidableEq (Except ε α) := fun a b =>
  match a, b with
  | .ok x, .ok y =>
    if h : x = y then .isTrue (congrArg Except.ok h)
    else .isFalse fun hh => h (Except.ok.inj hh)
  | .error x, .error y =>
    if h : x = y then .isTrue (congrArg Except.error h)
    else .isFalse fun hh => h (Except.error.inj hh)
  | .ok _, .error _ => .isFalse fun hh => Except.noConfusion hh
  | .error _, .ok _ => .isFalse fun hh => Except.noConfusion hh


instance decEqGeoOps : DecidableEq (QRGeometry × List ((ℤ × ℤ × ℤ × ℤ) × RGBA)) :=
  fun a b => instDecidableEqProd a b


/-- The width-derived module count of a geometry: content-box width divided
by `module_px`, rounded. -/

def widthCount (geo : QRGeometry) : ℤ :=
  pyRound (((geo.content_box.2.2.1 : ℚ) - geo.content_box.1 + 1) / geo.module_px)


/-- The height-derived module count of a geometry: content-box height divided
by `module_px`, rounded. -/

def heightCount (geo : QRGeometry) : ℤ :=
  pyRound (((geo.content_box.2.2.2 : ℚ) - geo.content_box.2.1 + 1) / geo.module_px)


/-- The all-dark 4×8 grayscale image: inference mode detects content box
(0,0,3,7), module size 4, and module counts 1 (width) vs 2 (height). -/

def ex1 : List (List ℕ) := List.replicate 8 (List.replicate 4 0)


/-- The geometry inference mode produces for `ex1` at threshold 128. -/

def geoEx1 : QRGeometry := ⟨2, 0, (0, 0, 3, 7), 4, 128, true⟩


/-- The geometry the override path produces for a 10×10 image with `n = 1`,
`qz = 2`. -/

def geoC4 : QRGeometry := ⟨1, 2, (4, 4, 5, 5), 2, 128, true⟩


/-- A 2×2 all-black QR bitmap. -/

def exQRb : Img := List.replicate 2 (List.replicate 2 ⟨0, 0, 0, 255⟩)


/-- A 2×2 opaque blue logo. -/

def exLogoB : Img := List.replicate 2 (List.replicate 2 ⟨0, 0, 255, 255⟩)


/-- The geometry the override path produces for `exQRb` with `n = 1`, `qz = 0`. -/

def geoB : QRGeometry := ⟨1, 0, (0, 0, 1, 1), 2, 128, true⟩


/-- The single draw operation the compositor emits for `exQRb`/`exLogoB`. -/

def opsB : List ((ℤ × ℤ × ℤ × ℤ) × RGBA) := [((0, 0, 1, 1), ⟨0, 0, 255, 255⟩)]


/-! ### C3: Otsu threshold selection -/

/-- Prefix mass of the histogram: `w_b` after the loop has processed bins
`0 … k-1`. -/

def otsuW (hist : ℕ → ℕ) (k : ℕ) : ℕ := ∑ i in Finset.range k, hist i


/-- Prefix weighted mass: `sum_b` after the loop has processed bins `0 … k-1`. -/

def otsuS (hist : ℕ → ℕ) (k : ℕ) : ℕ := ∑ i in Finset.range k, i * hist i


/-- `t` is a candidate threshold: both classes `{≤ t}` and `{> t}` carry
pixels, which is exactly when the loop computes a variance at `t`. -/

def otsuCand (hist : ℕ → ℕ) (t : ℕ) : Prop :=
  0 < otsuW hist (t + 1) ∧ otsuW hist (t + 1) < otsuW hist 256


instance (hist : ℕ → ℕ) (t : ℕ) : Decidable (otsuCand hist t) :=
  inferInstanceAs (Decidable (_ ∧ _))


/-- Between-class variance of the partition `{≤ t}` / `{> t}` — the quantity
the loop body computes at candidate `t` — extended by 0 when either class is
empty. -/

def varLE (hist : ℕ → ℕ) (t : ℕ) : ℚ :=
  let total := otsuW hist 256
  let wb := otsuW hist (t + 1)
  let wf := total - wb
  if wb = 0 ∨ wf = 0 then 0
  else (wb : ℚ) * wf *
    ((otsuS hist (t + 1) : ℚ) / wb - ((otsuS hist 256 : ℚ) - otsuS hist (t + 1)) / wf) ^ 2


/-- Per the claim's words: between-class variance of the partitions `{< t}`
and `{≥ t}`, extended by 0 when either class is empty.  This is the
spec-side comparison definition for C3. -/

def specVarLT (hist : ℕ → ℕ) (t : ℕ) : ℚ :=
  let total := otsuW hist 256
  let wb := otsuW hist t
  let wf := total - wb
  if wb = 0 ∨ wf = 0 then 0
  else (wb : ℚ) * wf *
    ((otsuS hist t : ℚ) / wb - ((otsuS hist 256 : ℚ) - otsuS hist t) / wf) ^ 2


/-- The loop invariant of `otsu_threshold` after the bins `0 … k-1` have been
processed: the running sums track the histogram prefixes until a `break`;
after a `break` the whole mass lies in the processed prefix; and
`(max_var, thresh)` is the running strict maximum of the between-class
variances over the candidates seen so far, `thresh` being the earliest
argmax, with the `(-1, 128)` initial pair when no candidate was seen. -/

def otsuInv (hist : ℕ → ℕ) (k : ℕ) (s : OtsuState) : Prop :=
  (s.done = false → s.w_b = otsuW hist k ∧ s.sum_b = otsuS hist k) ∧
  (s.done = true → 0 < otsuW hist 256 ∧ otsuW hist k = otsuW hist 256) ∧
  (∀ t, t < k → otsuCand hist t → varLE hist t ≤ s.max_var) ∧
  ((∀ t, t < k → ¬ otsuCand hist t) → s.max_var = -1 ∧ s.thresh = 128) ∧
  ((∃ t, t < k ∧ otsuCand hist t) →
    s.thresh < k ∧ otsuCand hist s.thresh ∧ varLE hist s.thresh = s.max_var ∧
    ∀ t, t < s.thresh → otsuCand hist t → varLE hist t < s.max_var)


/-- A histogram with mass 5 at bin 0 and mass 5 at bin 255. -/

def exHist : ℕ → ℕ := fun i => if i = 0 ∨ i = 255 then 5 else 0


/-- A 3×3 logo, white except one dark pixel at `(x, y) = (2, 0)` — the
sampling point of the grid cell directly above the center cell. -/

def exLogoC9 : Img :=
  [[⟨255, 255, 255, 255⟩, ⟨255, 255, 255, 255⟩, ⟨10, 10, 10, 255⟩],
   [⟨255, 255, 255, 255⟩, ⟨255, 255, 255, 255⟩, ⟨255, 255, 255, 255⟩],
   [⟨255, 255, 255, 255⟩, ⟨255, 255, 255, 255⟩, ⟨255, 255, 255, 255⟩]]


/-- A 1×1 logo whose only pixel is near-transparent. -/

def exLogoT : Img := [[⟨5, 5, 5, 0⟩]]


theorem abs_pyRound_sub_le (q : ℚ) : |(pyRound q : ℚ) - q| ≤ 1/2 := by
  unfold pyRound
  have h0 : (0 : ℚ) ≤ q - ⌊q⌋ := by
    have := Int.floor_le q
    linarith
  have h1 : q - ⌊q⌋ < 1 := by
    have := Int.lt_floor_add_one q
    linarith
  by_cases hlt : q - (⌊q⌋ : ℚ) < 1/2
  · simp only [hlt, if_true]
    rw [abs_le]
    constructor <;> linarith
  · simp only [hlt, if_false]
    by_cases hgt : (1:ℚ)/2 < q - ⌊q⌋
    · simp only [hgt, if_true]
      rw [abs_le]
      push_cast
      constructor <;> linarith
    · have heq : q - (⌊q⌋ : ℚ) = 1/2 := by linarith
      simp only [hgt, if_false]
      by_cases hpar : ⌊q⌋ % 2 = 0
      · simp only [hpar, if_pos]
        rw [abs_le]
        constructor <;> simp <;> linarith
      · simp only [hpar, if_neg, if_false]
        rw [abs_le]
        push_cast
        constructor <;> linarith


theorem pyRound_nonneg {q : ℚ} (h : 0 ≤ q) : 0 ≤ pyRound q := by
  have hb := abs_pyRound_sub_le q
  rw [abs_le] at hb
  have h1 : (-1 : ℚ) < (pyRound q : ℚ) := by linarith
  have h2 : (-1 : ℤ) < pyRound q := by exact_mod_cast h1
  omega


theorem pyRound_le_of_le {q : ℚ} {n : ℤ} (h : q ≤ n) : pyRound q ≤ n := by
  have hb := abs_pyRound_sub_le q
  rw [abs_le] at hb
  have h1 : (pyRound q : ℚ) < (n : ℚ) + 1 := by linarith
  have h2 : pyRound q < n + 1 := by exact_mod_cast h1
  omega


theorem pyRound_intCast (n : ℤ) : pyRound (n : ℚ) = n := by
  unfold pyRound
  simp


theorem clampZ_eq_self {v lo hi : ℤ} (h1 : lo ≤ v) (h2 : v ≤ hi) :
    clampZ v lo hi = v := by
  unfold clampZ
  rw [if_neg (by omega), if_neg (by omega)]


/-- `widthCount` of a literal geometry record. -/

theorem widthCount_mk (nm qz : ℕ) (l t r b : ℤ) (m : ℚ) (th : ℕ) (d : Bool) :
    widthCount ⟨nm, qz, (l, t, r, b), m, th, d⟩ = pyRound (((r : ℚ) - l + 1) / m) := rfl


/-- `heightCount` of a literal geometry record. -/

theorem heightCount_mk (nm qz : ℕ) (l t r b : ℤ) (m : ℚ) (th : ℕ) (d : Bool) :
    heightCount ⟨nm, qz, (l, t, r, b), m, th, d⟩ = pyRound (((b : ℚ) - t + 1) / m) := rfl


/-- Success of `finishGeo` fixes `dark_is_lt` to the polarity it was given. -/

theorem finishGeo_dark {W H left top right bottom : ℕ} {m : ℚ} {t : ℕ}
    {u : Bool} {geo : QRGeometry}
    (h : finishGeo W H left top right bottom m t u = .ok geo) :
    geo.dark_is_lt = u := by
  unfold finishGeo at h
  dsimp only at h
  split at h
  · exact absurd h (by simp)
  · have e := Except.ok.inj h
    subst e
    rfl


/-- `finishGeo` never raises the `NoModulesDetected` condition. -/

theorem finishGeo_ne_noModules {W H left top right bottom : ℕ} {m : ℚ} {t : ℕ}
    {u : Bool} :
    finishGeo W H left top right bottom m t u ≠ .error .noModulesDetected := by
  unfold finishGeo
  dsimp only
  split <;> simp


/-- On success, `finishGeo` relates `n_modules` to the width- and
height-derived counts recomputed from the output geometry: the width count
when they agree, else the rounded average. -/

theorem finishGeo_counts {W H left top right bottom : ℕ} {m : ℚ} {t : ℕ}
    {u : Bool} {geo : QRGeometry}
    (h : finishGeo W H left top right bottom m t u = .ok geo) :
    (geo.n_modules : ℤ) =
      if widthCount geo ≠ heightCount geo
      then pyRound (((widthCount geo : ℚ) + (heightCount geo : ℚ)) / 2)
      else widthCount geo := by
  unfold finishGeo at h
  dsimp only at h
  split at h
  · exact absurd h (by simp)
  · rename_i hn
    have e := Except.ok.inj h
    subst e
    rw [widthCount_mk, heightCount_mk]
    have hcast1 : ((((right : ℤ) - (left : ℤ) + 1 : ℤ)) : ℚ) =
        (((right : ℤ) : ℚ) - ((left : ℤ) : ℚ) + 1) := by push_cast; ring
    have hcast2 : ((((bottom : ℤ) - (top : ℤ) + 1 : ℤ)) : ℚ) =
        (((bottom : ℤ) : ℚ) - ((top : ℤ) : ℚ) + 1) := by push_cast; ring
    show ((moduleCountFrom ((right : ℤ) - left + 1) ((bottom : ℤ) - top + 1) m).toNat : ℤ) = _
    unfold moduleCountFrom at hn ⊢
    dsimp only at hn ⊢
    rw [hcast1, hcast2] at hn ⊢
    exact Int.toNat_of_nonneg (by omega)


/-- Success of `detectFinish` fixes `dark_is_lt` to the polarity it was
handed. -/

theorem detectFinish_dark {g : List (List ℕ)} {W H t : ℕ} {u : Bool}
    {p : ℕ → Bool} {coords : List (ℕ × ℕ)} {geo : QRGeometry}
    (h : detectFinish g W H t u p coords = .ok geo) : geo.dark_is_lt = u := by
  unfold detectFinish at h
  dsimp only at h
  split at h
  · exact absurd h (by simp)
  · exact finishGeo_dark h


/-- `detectFinish` never raises the `NoModulesDetected` condition. -/

theorem detectFinish_ne_noModules {g : List (List ℕ)} {W H t : ℕ} {u : Bool}
    {p : ℕ → Bool} {coords : List (ℕ × ℕ)} :
    detectFinish g W H t u p coords ≠ .error .noModulesDetected := by
  unfold detectFinish
  dsimp only
  split
  · simp
  · exact finishGeo_ne_noModules


/-- On success, `detectFinish` satisfies the module-count law of
`finishGeo_counts`. -/

theorem detectFinish_counts {g : List (List ℕ)} {W H t : ℕ} {u : Bool}
    {p : ℕ → Bool} {coords : List (ℕ × ℕ)} {geo : QRGeometry}
    (h : detectFinish g W H t u p coords = .ok geo) :
    (geo.n_modules : ℤ) =
      if widthCount geo ≠ heightCount geo
      then pyRound (((widthCount geo : ℚ) + (heightCount geo : ℚ)) / 2)
      else widthCount geo := by
  unfold detectFinish at h
  dsimp only at h
  split at h
  · exact absurd h (by simp)
  · exact finishGeo_counts h


/-- Success of `detectStage2` fixes `dark_is_lt` to the chosen polarity. -/

theorem detectStage2_dark {g : List (List ℕ)} {W H t : ℕ} {u : Bool}
    {geo : QRGeometry} (h : detectStage2 g W H t u = .ok geo) :
    geo.dark_is_lt = u := by
  unfold detectStage2 at h
  dsimp only at h
  split at h
  · split at h
    · exact absurd h (by simp)
    · exact detectFinish_dark h
  · exact detectFinish_dark h


/-- `detectStage2` never raises the `NoModulesDetected` condition. -/

theorem detectStage2_ne_noModules {g : List (List ℕ)} {W H t : ℕ} {u : Bool} :
    detectStage2 g W H t u ≠ .error .noModulesDetected := by
  unfold detectStage2
  dsimp only
  split
  · split
    · simp
    · exact detectFinish_ne_noModules
  · exact detectFinish_ne_noModules


/-- On success, `detectStage2` satisfies the module-count law. -/

theorem detectStage2_counts {g : List (List ℕ)} {W H t : ℕ} {u : Bool}
    {geo : QRGeometry} (h : detectStage2 g W H t u = .ok geo) :
    (geo.n_modules : ℤ) =
      if widthCount geo ≠ heightCount geo
      then pyRound (((widthCount geo : ℚ) + (heightCount geo : ℚ)) / 2)
      else widthCount geo := by
  unfold detectStage2 at h
  dsimp only at h
  split at h
  · split at h
    · exact absurd h (by simp)
    · exact detectFinish_counts h
  · exact detectFinish_counts h


/-! ### C1: module-count derivation -/

/-- C1 counterexample: on the all-dark 4×8 image the width-derived count is 1
and the height-derived count is 2, yet inference mode sets `n_modules = 2`
(the rounded average), not the width count — so the width count is not
authoritative on a mismatch. -/

theorem detect_c1_counterexample :
    detect_qr_geometry ex1 (some 128) = .ok geoEx1 ∧
    widthCount geoEx1 = 1 ∧ heightCount geoEx1 = 2 ∧
    geoEx1.n_modules = 2 ∧ (geoEx1.n_modules : ℤ) ≠ widthCount geoEx1 := by
  decide


/-- C1 (amended): in inference mode, when the width- and height-derived
module counts differ, `n_modules` is the rounded (half-to-even) average of
the two; the width count is used only when the two counts are equal. -/

theorem detect_c1_amended (g : List (List ℕ)) (thr? : Option ℕ)
    (geo : QRGeometry) (h : detect_qr_geometry g thr? = .ok geo) :
    (geo.n_modules : ℤ) =
      if widthCount geo ≠ heightCount geo
      then pyRound (((widthCount geo : ℚ) + (heightCount geo : ℚ)) / 2)
      else widthCount geo := by
  unfold detect_qr_geometry at h
  dsimp only at h
  split at h
  · exact absurd h (by simp)
  · exact detectStage2_counts h


/-- C1 witness: the amended count law evaluated on the all-dark 4×8 image. -/

theorem detect_c1_witness :
    (geoEx1.n_modules : ℤ) =
      if widthCount geoEx1 ≠ heightCount geoEx1
      then pyRound (((widthCount geoEx1 : ℚ) + (heightCount geoEx1 : ℚ)) / 2)
      else widthCount geoEx1 :=
  detect_c1_amended ex1 (some 128) geoEx1 (by decide)


/-! ### C4: content-box / module_px consistency invariant -/

/-- C4 counterexample: the inference-path geometry for the all-dark 4×8 image
violates the ±1 invariant — its content-box width is 4 while
`module_px × n_modules = 8`. -/

theorem qrgeometry_c4_counterexample :
    detect_qr_geometry ex1 (some 128) = .ok geoEx1 ∧
    ¬(|((geoEx1.content_box.2.2.1 : ℚ) - geoEx1.content_box.1 + 1) -
        geoEx1.module_px * geoEx1.n_modules| ≤ 1) := by
  decide


/-- C4 (amended): every geometry constructed by the override path satisfies
the invariant that both content-box extents agree with
`module_px × n_modules` to within ±1 pixel; the inference path does not
guarantee it. -/

theorem qrgeometry_c4_amended (W H n qz : ℕ) (geo : QRGeometry)
    (h : geo_from_exact_dims W H n qz = .ok geo) :
    |((geo.content_box.2.2.1 : ℚ) - geo.content_box.1 + 1) -
      geo.module_px * geo.n_modules| ≤ 1 ∧
    |((geo.content_box.2.2.2 : ℚ) - geo.content_box.2.1 + 1) -
      geo.module_px * geo.n_modules| ≤ 1 := by
  unfold geo_from_exact_dims at h
  split at h
  · exact absurd h (by simp)
  · dsimp only at h
    split at h
    · exact absurd h (by simp)
    · have e := Except.ok.inj h
      subst e
      dsimp only
      have h1 := abs_pyRound_sub_le ((qz : ℚ) * ((W : ℚ) / ((n + 2 * qz : ℕ) : ℚ)))
      have h2 := abs_pyRound_sub_le (((qz : ℚ) + n) * ((W : ℚ) / ((n + 2 * qz : ℕ) : ℚ)))
      have harg : ∀ X Y : ℤ,
          ((X - 1 : ℤ) : ℚ) - (Y : ℚ) + 1 -
              (W : ℚ) / ((n + 2 * qz : ℕ) : ℚ) * (n : ℚ) =
            ((X : ℚ) - ((qz : ℚ) + n) * ((W : ℚ) / ((n + 2 * qz : ℕ) : ℚ))) -
              ((Y : ℚ) - (qz : ℚ) * ((W : ℚ) / ((n + 2 * qz : ℕ) : ℚ))) := by
        intro X Y
        push_cast
        ring
      rw [abs_le] at h1 h2
      constructor
      · rw [harg]
        rw [abs_le]
        constructor <;> linarith
      · rw [harg]
        rw [abs_le]
        constructor <;> linarith


/-- C4 witness: the amended invariant evaluated on the override geometry of a
10×10 image with one content module and a 2-module quiet zone. -/

theorem qrgeometry_c4_witness :
    |((geoC4.content_box.2.2.1 : ℚ) - geoC4.content_box.1 + 1) -
      geoC4.module_px * geoC4.n_modules| ≤ 1 ∧
    |((geoC4.content_box.2.2.2 : ℚ) - geoC4.content_box.2.1 + 1) -
      geoC4.module_px * geoC4.n_modules| ≤ 1 :=
  qrgeometry_c4_amended 10 10 1 2 geoC4 (by decide)


/-! ### C6: mask choice and NoModulesDetected -/

/-- C6: inference mode fails with `NoModulesDetected` exactly when both
candidate masks are empty; on success the polarity recorded in `dark_is_lt`
is the mask with the larger count of set pixels (the `< t` mask winning
ties), and that mask is non-empty. -/

theorem detect_c6 (g : List (List ℕ)) (thr? : Option ℕ) :
    (detect_qr_geometry g thr? = .error .noModulesDetected ↔
      countPix g (fun v => v < detectThreshold g thr?) = 0 ∧
      countPix g (fun v => detectThreshold g thr? < v) = 0) ∧
    (∀ geo, detect_qr_geometry g thr? = .ok geo →
      geo.dark_is_lt =
        decide (countPix g (fun v => detectThreshold g thr? < v) ≤
          countPix g (fun v => v < detectThreshold g thr?)) ∧
      (if geo.dark_is_lt = true
       then 0 < countPix g (fun v => v < detectThreshold g thr?)
       else 0 < countPix g (fun v => detectThreshold g thr? < v))) := by
  constructor
  · constructor
    · intro hc
      by_contra hboth
      unfold detect_qr_geometry at hc
      dsimp only at hc
      rw [if_neg hboth] at hc
      exact detectStage2_ne_noModules hc
    · intro hb
      unfold detect_qr_geometry
      dsimp only
      rw [if_pos hb]
  · intro geo hgeo
    have hboth : ¬(countPix g (fun v => v < detectThreshold g thr?) = 0 ∧
        countPix g (fun v => detectThreshold g thr? < v) = 0) := by
      intro hb
      unfold detect_qr_geometry at hgeo
      dsimp only at hgeo
      rw [if_pos hb] at hgeo
      exact absurd hgeo (by simp)
    have hd : geo.dark_is_lt =
        decide (countPix g (fun v => detectThreshold g thr? < v) ≤
          countPix g (fun v => v < detectThreshold g thr?) ∧
          0 < countPix g (fun v => v < detectThreshold g thr?)) := by
      unfold detect_qr_geometry at hgeo
      dsimp only at hgeo
      rw [if_neg hboth] at hgeo
      exact detectStage2_dark hgeo
    constructor
    · rw [hd, decide_eq_decide]
      omega
    · rw [hd]
      by_cases hA : countPix g (fun v => detectThreshold g thr? < v) ≤
          countPix g (fun v => v < detectThreshold g thr?) ∧
          0 < countPix g (fun v => v < detectThreshold g thr?)
      · rw [if_pos (by rw [decide_eq_true hA])]
        exact hA.2
      · rw [if_neg (by rw [decide_eq_false hA]; exact Bool.false_ne_true)]
        omega


/-- C6 witness: the mask-choice law of the success case, evaluated on the
all-dark 4×8 image. -/

theorem detect_c6_witness :
    geoEx1.dark_is_lt =
      decide (countPix ex1 (fun v => detectThreshold ex1 (some 128) < v) ≤
        countPix ex1 (fun v => v < detectThreshold ex1 (some 128))) ∧
    (if geoEx1.dark_is_lt = true
     then 0 < countPix ex1 (fun v => v < detectThreshold ex1 (some 128))
     else 0 < countPix ex1 (fun v => detectThreshold ex1 (some 128) < v)) :=
  (detect_c6 ex1 (some 128)).2 geoEx1 (by decide)


/-! ### C8: totality of the compositing loop -/

theorem exceptMap_ok {α β ε : Type _} {f : α → β} {e : Except ε α} {b : β}
    (h : e.map f = .ok b) : ∃ a, e = .ok a ∧ b = f a := by
  cases e with
  | error _ => exact absurd h (by simp [Except.map])
  | ok a => exact ⟨a, rfl, by simp [Except.map] at h; exact h.symm⟩


theorem gridPairs_eq (n : ℕ) : gridPairs n = (List.range n) ×ˢ (List.range n) := rfl


/-- The color attached to the rectangle of a module operation is always the
resolved color. -/

theorem module_op_color (qr logo : Img) (geo : QRGeometry) (sf : ℚ)
    (tl radius alpha : ℕ) (r c : ℕ) :
    (module_op qr logo geo sf tl radius alpha r c).2 =
      resolve_color logo (imgW logo) (imgH logo)
        (geo.n_modules + 2 * geo.qz_modules) geo.qz_modules r c
        (sample_qr_module_dark qr geo r c) tl radius alpha := by
  unfold module_op
  dsimp only
  split <;> rfl


/-- Color resolution is total and its alpha channel is the caller's overlay
alpha, whether the picker or the synthesizer produced the color. -/

theorem resolve_color_alpha (logo : Img) (lw lh total qz row col : ℕ)
    (wd : Bool) (thr radius alpha : ℕ) :
    (resolve_color logo lw lh total qz row col wd thr radius alpha).a = alpha := by
  unfold resolve_color
  cases hpick : pick_logo_color logo lw lh total qz row col wd thr radius with
  | some p => rfl
  | none =>
    unfold synth_color
    rfl


/-- C8: the compositing loop has no failure path — it paints exactly one
rectangle per module of the `n × n` content grid (the grid enumeration is
duplicate-free and covers precisely the in-range modules), color resolution
is a total function, and every painted color carries the caller-supplied
overlay alpha. -/

theorem build_overlay_c8 (qr logo : Img) (mo qo : Option ℕ) (sf : ℚ)
    (radius tl : ℕ) (tq : Option ℕ) (sk : Bool) (alpha : ℕ)
    (geo : QRGeometry) (ops : List ((ℤ × ℤ × ℤ × ℤ) × RGBA))
    (h : build_overlay_ops qr logo mo qo sf radius tl tq sk alpha = .ok (geo, ops)) :
    ops.length = geo.n_modules * geo.n_modules ∧
    (∀ op ∈ ops, op.2.a = alpha) ∧
    ops = (gridPairs geo.n_modules).map
      (fun rc => module_op qr logo geo sf tl radius alpha rc.1 rc.2) ∧
    (gridPairs geo.n_modules).Nodup ∧
    (∀ r c : ℕ, (r, c) ∈ gridPairs geo.n_modules ↔
      r < geo.n_modules ∧ c < geo.n_modules) := by
  unfold build_overlay_ops at h
  dsimp only at h
  obtain ⟨g', hE, hpair⟩ := exceptMap_ok h
  obtain ⟨hg, hops⟩ := Prod.mk.injEq .. ▸ hpair
  subst hg
  refine ⟨?_, ?_, hops, ?_, ?_⟩
  · rw [hops, List.length_map, gridPairs_eq, List.length_product, List.length_range]
  · intro op hop
    rw [hops] at hop
    obtain ⟨rc, _, hrc⟩ := List.mem_map.1 hop
    rw [← hrc, module_op_color]
    exact resolve_color_alpha ..
  · rw [gridPairs_eq]
    exact (List.nodup_range _).product (List.nodup_range _)
  · intro r c
    rw [gridPairs_eq]
    simp [List.mem_product]


/-- C8 witness: the loop totality law evaluated on the 2×2 black QR and blue
logo in override mode. -/

theorem build_overlay_c8_witness :
    opsB.length = geoB.n_modules * geoB.n_modules ∧ ∀ op ∈ opsB, op.2.a = 255 := by
  have h := build_overlay_c8 exQRb exLogoB (some 1) (some 0) (1/4) 2 145 none true 255
    geoB opsB (by decide)
  exact ⟨h.1, h.2.1⟩


theorem otsuW_mono (hist : ℕ → ℕ) {j k : ℕ} (h : j ≤ k) :
    otsuW hist j ≤ otsuW hist k := by
  unfold otsuW
  exact Finset.sum_le_sum_of_subset (Finset.range_subset.2 h)


theorem otsuW_succ (hist : ℕ → ℕ) (k : ℕ) :
    otsuW hist (k + 1) = otsuW hist k + hist k :=
  Finset.sum_range_succ hist k


theorem otsuS_succ (hist : ℕ → ℕ) (k : ℕ) :
    otsuS hist (k + 1) = otsuS hist k + k * hist k :=
  Finset.sum_range_succ (fun i => i * hist i) k


theorem varLE_nonneg (hist : ℕ → ℕ) (t : ℕ) : 0 ≤ varLE hist t := by
  unfold varLE
  dsimp only
  split
  · exact le_refl 0
  · positivity


theorem varLE_eq_zero_of_not_cand {hist : ℕ → ℕ} {t : ℕ}
    (h : ¬ otsuCand hist t) : varLE hist t = 0 := by
  unfold otsuCand at h
  unfold varLE
  dsimp only
  split
  · rfl
  · omega


/-- At a candidate threshold the two class means straddle the cut, so the
between-class variance is strictly positive. -/

theorem varLE_pos_of_cand {hist : ℕ → ℕ} {t : ℕ} (ht : t ≤ 255)
    (h : otsuCand hist t) : 0 < varLE hist t := by
  obtain ⟨hwb, hwf⟩ := h
  have hle : t + 1 ≤ 256 := by omega
  have key : ∀ WB WF SB SF : ℚ, 0 < WB → 0 < WF →
      SB ≤ (t : ℚ) * WB → ((t : ℚ) + 1) * WF ≤ SF →
      0 < WB * WF * (SB / WB - SF / WF) ^ 2 := by
    intro WB WF SB SF h1 h2 h3 h4
    have hmb : SB / WB ≤ (t : ℚ) := by rw [div_le_iff₀ h1]; linarith
    have hmf : (t : ℚ) + 1 ≤ SF / WF := by rw [le_div_iff₀ h2]; linarith
    have hne : SB / WB - SF / WF ≠ 0 := by
      intro h0
      have : SF / WF ≤ (t : ℚ) := by
        have := sub_eq_zero.mp h0
        linarith [this ▸ hmb]
      linarith
    have hsq : 0 < (SB / WB - SF / WF) ^ 2 := pow_two_pos_of_ne_zero hne
    exact mul_pos (mul_pos h1 h2) hsq
  -- split `range 256` at `t + 1`
  have hWsplit : otsuW hist (t + 1) + (∑ i in Finset.Ico (t + 1) 256, hist i) =
      otsuW hist 256 := by
    unfold otsuW
    simp only [Finset.range_eq_Ico]
    exact Finset.sum_Ico_consecutive _ (Nat.zero_le _) hle
  have hSsplit : otsuS hist (t + 1) + (∑ i in Finset.Ico (t + 1) 256, i * hist i) =
      otsuS hist 256 := by
    unfold otsuS
    simp only [Finset.range_eq_Ico]
    exact Finset.sum_Ico_consecutive _ (Nat.zero_le _) hle
  -- the mean bounds, in ℕ
  have hmbN : otsuS hist (t + 1) ≤ t * otsuW hist (t + 1) := by
    unfold otsuS otsuW
    rw [Finset.mul_sum]
    refine Finset.sum_le_sum fun i hi => ?_
    exact Nat.mul_le_mul_right _ (by have := Finset.mem_range.1 hi; omega)
  have hmfN : (t + 1) * (∑ i in Finset.Ico (t + 1) 256, hist i) ≤
      ∑ i in Finset.Ico (t + 1) 256, i * hist i := by
    rw [Finset.mul_sum]
    refine Finset.sum_le_sum fun i hi => ?_
    exact Nat.mul_le_mul_right _ (Finset.mem_Ico.1 hi).1
  unfold varLE
  dsimp only
  split
  · omega
  · have hsub : ((otsuW hist 256 - otsuW hist (t + 1) : ℕ) : ℚ) =
        (otsuW hist 256 : ℚ) - (otsuW hist (t + 1) : ℚ) := by
      rw [Nat.cast_sub (le_of_lt hwf)]
    rw [hsub]
    refine key _ _ _ _ ?_ ?_ ?_ ?_
    · exact_mod_cast hwb
    · rw [← hsub]
      exact_mod_cast Nat.sub_pos_of_lt hwf
    · exact_mod_cast hmbN
    · have hq : ((t : ℚ) + 1) * ((otsuW hist 256 : ℚ) - (otsuW hist (t + 1) : ℚ)) ≤
          (otsuS hist 256 : ℚ) - (otsuS hist (t + 1) : ℚ) := by
        have e1 : (otsuW hist 256 : ℚ) - (otsuW hist (t + 1) : ℚ) =
            ((∑ i in Finset.Ico (t + 1) 256, hist i : ℕ) : ℚ) := by
          rw [← hWsplit]
          push_cast
          ring
        have e2 : (otsuS hist 256 : ℚ) - (otsuS hist (t + 1) : ℚ) =
            ((∑ i in Finset.Ico (t + 1) 256, i * hist i : ℕ) : ℚ) := by
          rw [← hSsplit]
          push_cast
          ring
        rw [e1, e2]
        have hc : (((t + 1) * (∑ i in Finset.Ico (t + 1) 256, hist i) : ℕ) : ℚ) ≤
            ((∑ i in Finset.Ico (t + 1) 256, i * hist i : ℕ) : ℚ) := by
          exact_mod_cast hmfN
        calc ((t : ℚ) + 1) * ((∑ i in Finset.Ico (t + 1) 256, hist i : ℕ) : ℚ)
            = (((t + 1) * (∑ i in Finset.Ico (t + 1) 256, hist i) : ℕ) : ℚ) := by
              push_cast
              ring
          _ ≤ _ := hc
      exact hq


theorem otsuInv_step (hist : ℕ → ℕ) (k : ℕ) (hk : k < 256) (s : OtsuState)
    (h : otsuInv hist k s) :
    otsuInv hist (k + 1) (otsuStep hist (otsuW hist 256) (otsuS hist 256) s k) := by
  obtain ⟨h1, h2, h3, h4, h5⟩ := h
  by_cases hdone : s.done = true
  · have hstep : otsuStep hist (otsuW hist 256) (otsuS hist 256) s k = s := by
      unfold otsuStep
      rw [if_pos hdone]
    rw [hstep]
    obtain ⟨htot, hW⟩ := h2 hdone
    have hW1 : otsuW hist (k + 1) = otsuW hist 256 := by
      have ha := otsuW_mono hist (show k + 1 ≤ 256 by omega)
      have hb := otsuW_mono hist (show k ≤ k + 1 by omega)
      omega
    have hnotcand : ¬ otsuCand hist k := by
      unfold otsuCand
      omega
    refine ⟨fun habs => by rw [habs] at hdone; exact absurd hdone (by simp),
      fun _ => ⟨htot, hW1⟩, ?_, ?_, ?_⟩
    · intro t ht hc
      rcases Nat.lt_succ_iff_lt_or_eq.mp ht with h | h
      · exact h3 t h hc
      · subst h
        exact absurd hc hnotcand
    · intro hall
      exact h4 fun t ht => hall t (by omega)
    · rintro ⟨t, ht, hc⟩
      have ht' : t < k := by
        rcases Nat.lt_succ_iff_lt_or_eq.mp ht with h | h
        · exact h
        · subst h
          exact absurd hc hnotcand
      obtain ⟨ha, hb, hc', hd⟩ := h5 ⟨t, ht', hc⟩
      exact ⟨by omega, hb, hc', hd⟩
  · have hdf : s.done = false := by
      revert hdone
      cases s.done <;> simp
    obtain ⟨hwb, hsb⟩ := h1 hdf
    unfold otsuStep
    rw [if_neg hdone]
    dsimp only
    rw [hwb, hsb, ← otsuW_succ hist k, ← otsuS_succ hist k]
    by_cases hz : otsuW hist (k + 1) = 0
    · rw [if_pos hz]
      unfold otsuInv
      dsimp only
      have hhk : hist k = 0 := by
        have := otsuW_succ hist k
        omega
      have hnotcand : ¬ otsuCand hist k := by
        unfold otsuCand
        omega
      refine ⟨?_, ?_, ?_, ?_, ?_⟩
      · intro _
        refine ⟨rfl, ?_⟩
        show otsuS hist k = otsuS hist (k + 1)
        rw [otsuS_succ hist k, hhk]
        omega
      · intro habs
        exact absurd (hdf ▸ habs) (by simp)
      · intro t ht hc
        rcases Nat.lt_succ_iff_lt_or_eq.mp ht with h | h
        · exact h3 t h hc
        · subst h
          exact absurd hc hnotcand
      · intro hall
        exact h4 fun t ht => hall t (by omega)
      · rintro ⟨t, ht, hc⟩
        have ht' : t < k := by
          rcases Nat.lt_succ_iff_lt_or_eq.mp ht with h | h
          · exact h
          · subst h
            exact absurd hc hnotcand
        obtain ⟨ha, hb, hc', hd⟩ := h5 ⟨t, ht', hc⟩
        exact ⟨by omega, hb, hc', hd⟩
    · rw [if_neg hz]
      by_cases hf : otsuW hist 256 - otsuW hist (k + 1) = 0
      · rw [if_pos hf]
        unfold otsuInv
        dsimp only
        have hmono : otsuW hist (k + 1) ≤ otsuW hist 256 :=
          otsuW_mono hist (show k + 1 ≤ 256 by omega)
        have hW1 : otsuW hist (k + 1) = otsuW hist 256 := by omega
        have hnotcand : ¬ otsuCand hist k := by
          unfold otsuCand
          omega
        refine ⟨?_, ?_, ?_, ?_, ?_⟩
        · intro habs
          exact absurd habs (by simp)
        · intro _
          exact ⟨by omega, hW1⟩
        · intro t ht hc
          rcases Nat.lt_succ_iff_lt_or_eq.mp ht with h | h
          · exact h3 t h hc
          · subst h
            exact absurd hc hnotcand
        · intro hall
          exact h4 fun t ht => hall t (by omega)
        · rintro ⟨t, ht, hc⟩
          have ht' : t < k := by
            rcases Nat.lt_succ_iff_lt_or_eq.mp ht with h | h
            · exact h
            · subst h
              exact absurd hc hnotcand
          obtain ⟨ha, hb, hc', hd⟩ := h5 ⟨t, ht', hc⟩
          exact ⟨by omega, hb, hc', hd⟩
      · rw [if_neg hf]
        have hcand : otsuCand hist k := by
          unfold otsuCand
          omega
        have hveq : varLE hist k =
            (otsuW hist (k + 1) : ℚ) * ((otsuW hist 256 - otsuW hist (k + 1) : ℕ) : ℚ) *
              ((otsuS hist (k + 1) : ℚ) / (otsuW hist (k + 1) : ℚ) -
                ((otsuS hist 256 : ℚ) - (otsuS hist (k + 1) : ℚ)) /
                  ((otsuW hist 256 - otsuW hist (k + 1) : ℕ) : ℚ)) ^ 2 := by
          unfold varLE
          dsimp only
          split
          · exfalso
            omega
          · rfl
        rw [← hveq]
        by_cases hlt : s.max_var < varLE hist k
        · rw [if_pos hlt]
          unfold otsuInv
          dsimp only
          refine ⟨fun _ => ⟨rfl, rfl⟩, fun habs => absurd habs (by simp), ?_, ?_, ?_⟩
          · intro t ht hc
            rcases Nat.lt_succ_iff_lt_or_eq.mp ht with h | h
            · exact le_of_lt (lt_of_le_of_lt (h3 t h hc) hlt)
            · subst h
              exact le_refl _
          · intro hall
            exact absurd hcand (hall k (Nat.lt_succ_self k))
          · intro _
            refine ⟨Nat.lt_succ_self k, hcand, rfl, ?_⟩
            intro t ht hc
            exact lt_of_le_of_lt (h3 t ht hc) hlt
        · rw [if_neg hlt]
          unfold otsuInv
          dsimp only
          have hle' : varLE hist k ≤ s.max_var := le_of_not_lt hlt
          refine ⟨fun _ => ⟨rfl, rfl⟩, fun habs => absurd habs (by simp), ?_, ?_, ?_⟩
          · intro t ht hc
            rcases Nat.lt_succ_iff_lt_or_eq.mp ht with h | h
            · exact h3 t h hc
            · subst h
              exact hle'
          · intro hall
            exact absurd hcand (hall k (Nat.lt_succ_self k))
          · intro _
            have hex : ∃ t, t < k ∧ otsuCand hist t := by
              by_contra hnex
              push_neg at hnex
              obtain ⟨hm, _⟩ := h4 fun t ht => hnex t ht
              have hnn := varLE_nonneg hist k
              rw [hm] at hle'
              linarith
            obtain ⟨ha, hb, hc', hd⟩ := h5 hex
            exact ⟨by omega, hb, hc', hd⟩


theorem otsuInv_foldl (hist : ℕ → ℕ) :
    ∀ k, k ≤ 256 →
      otsuInv hist k
        ((List.range k).foldl (otsuStep hist (otsuW hist 256) (otsuS hist 256))
          ⟨0, 0, -1, 128, false⟩) := by
  intro k
  induction k with
  | zero =>
    intro _
    refine ⟨fun _ => ⟨by simp [otsuW], by simp [otsuS]⟩,
      fun hh => absurd hh (by simp), fun t ht => absurd ht (Nat.not_lt_zero t),
      fun _ => ⟨rfl, rfl⟩, ?_⟩
    rintro ⟨t, ht, _⟩
    exact absurd ht (Nat.not_lt_zero t)
  | succ k ih =>
    intro hk1
    rw [List.range_succ, List.foldl_append, List.foldl_cons, List.foldl_nil]
    exact otsuInv_step hist k (by omega) _ (ih (by omega))


/-- C3 counterexample: `otsu_threshold` on the two-spike histogram returns 0,
but the between-class variance of the partitions `{< t}` / `{≥ t}` named by
the claim is not maximal at 0 — it is 0 there (the lower class is empty) and
strictly larger at t = 1.  The loop in fact maximises the variance of
`{≤ t}` / `{> t}`. -/

theorem otsu_c3_counterexample :
    otsu_from_hist exHist = 0 ∧
    specVarLT exHist (otsu_from_hist exHist) < specVarLT exHist 1 := by
  decide


/-- C3 (amended): `otsu_threshold` returns the threshold `t` in `[0, 255]`
maximising the between-class variance of the partitions `{≤ t}` and `{> t}`
(0 when a class is empty), keeping the earliest `t` when the maximum is
attained more than once; 128 is returned when no candidate is ever assigned
(all variances zero). -/

theorem otsu_c3_amended (hist : ℕ → ℕ) :
    otsu_from_hist hist ≤ 255 ∧
    (∀ t, t ≤ 255 → varLE hist t ≤ varLE hist (otsu_from_hist hist)) ∧
    ((∃ t, t ≤ 255 ∧ 0 < varLE hist t) →
      ∀ t, t < otsu_from_hist hist → varLE hist t < varLE hist (otsu_from_hist hist)) ∧
    ((∀ t, t ≤ 255 → varLE hist t = 0) → otsu_from_hist hist = 128) := by
  have hdef : otsu_from_hist hist =
      ((List.range 256).foldl (otsuStep hist (otsuW hist 256) (otsuS hist 256))
        ⟨0, 0, -1, 128, false⟩).thresh := rfl
  obtain ⟨h1, h2, h3, h4, h5⟩ := otsuInv_foldl hist 256 (le_refl 256)
  rw [hdef]
  by_cases hex : ∃ t, t < 256 ∧ otsuCand hist t
  · obtain ⟨hta, htb, htc, htd⟩ := h5 hex
    have hpos := varLE_pos_of_cand (by omega) htb
    refine ⟨by omega, ?_, ?_, ?_⟩
    · intro t ht
      by_cases hc : otsuCand hist t
      · have := h3 t (by omega) hc
        rw [htc]
        exact this
      · rw [varLE_eq_zero_of_not_cand hc]
        exact le_of_lt hpos
    · intro _ t ht
      by_cases hc : otsuCand hist t
      · rw [htc]
        exact htd t ht hc
      · rw [varLE_eq_zero_of_not_cand hc]
        exact hpos
    · intro hall
      exact absurd (hall _ (by omega)) (ne_of_gt hpos)
  · have hallnc : ∀ t, t < 256 → ¬ otsuCand hist t := fun t ht hc => hex ⟨t, ht, hc⟩
    obtain ⟨hm, hth⟩ := h4 hallnc
    rw [hth]
    refine ⟨by omega, ?_, ?_, fun _ => rfl⟩
    · intro t ht
      rw [varLE_eq_zero_of_not_cand (hallnc t (by omega)),
          varLE_eq_zero_of_not_cand (hallnc 128 (by omega))]
    · rintro ⟨t, ht, hpos⟩
      exact absurd (varLE_eq_zero_of_not_cand (hallnc t (by omega))) (ne_of_gt hpos)


/-- C3 witness: the amended maximality law evaluated on the two-spike
histogram at candidate 7. -/

theorem otsu_c3_witness :
    otsu_from_hist exHist ≤ 255 ∧
    varLE exHist 7 ≤ varLE exHist (otsu_from_hist exHist) := by
  have h := otsu_c3_amended exHist
  exact ⟨h.1, h.2.1 7 (by norm_num)⟩


/-! ### C2: ColorSynthesizer blend values -/

/-- C2 counterexample: pushing mid-gray (128,128,128) toward light with
strength 0.40 yields (179,179,179) — `round(128 + 127·0.40) = round(178.8)`
— not the (204,204,204) the claim states. -/

theorem adjust_color_c2_counterexample :
    adjust_color_toward (128, 128, 128) false (2/5) = (179, 179, 179) ∧
    adjust_color_toward (128, 128, 128) false (2/5) ≠ (204, 204, 204) := by
  decide


/-- C2 (amended): with strength 0.40, mid-gray goes to (77,77,77) toward dark
and to (179,179,179) toward light; in general each byte channel moves 40% of
its remaining distance toward 0 or toward 255 (rounded half-to-even), the
result already lying in [0,255] so the clamp is the identity. -/

theorem adjust_color_c2_amended :
    adjust_color_toward (128, 128, 128) true (2/5) = (77, 77, 77) ∧
    adjust_color_toward (128, 128, 128) false (2/5) = (179, 179, 179) ∧
    ∀ r g b : ℕ, r ≤ 255 → g ≤ 255 → b ≤ 255 →
      adjust_color_toward (r, g, b) true (2/5) =
        ((pyRound ((r : ℚ) * (3/5))).toNat, (pyRound ((g : ℚ) * (3/5))).toNat,
         (pyRound ((b : ℚ) * (3/5))).toNat) ∧
      adjust_color_toward (r, g, b) false (2/5) =
        ((pyRound ((r : ℚ) + ((255 : ℚ) - r) * (2/5))).toNat,
         (pyRound ((g : ℚ) + ((255 : ℚ) - g) * (2/5))).toNat,
         (pyRound ((b : ℚ) + ((255 : ℚ) - b) * (2/5))).toNat) ∧
      (adjust_color_toward (r, g, b) true (2/5)).1 ≤ 255 ∧
      (adjust_color_toward (r, g, b) false (2/5)).1 ≤ 255 := by
  refine ⟨by decide, by decide, fun r g b hr hg hb => ?_⟩
  have dark : ∀ c : ℕ, c ≤ 255 →
      clampZ (pyRound ((c : ℚ) * (1 - 2/5))) 0 255 = pyRound ((c : ℚ) * (3/5)) := by
    intro c hc
    have he : (c : ℚ) * (1 - 2/5) = (c : ℚ) * (3/5) := by ring
    rw [he]
    refine clampZ_eq_self (pyRound_nonneg (by positivity)) (pyRound_le_of_le ?_)
    have : (c : ℚ) ≤ 255 := by exact_mod_cast hc
    nlinarith
  have light : ∀ c : ℕ, c ≤ 255 →
      clampZ (pyRound ((c : ℚ) + ((255 : ℚ) - c) * (2/5))) 0 255 =
        pyRound ((c : ℚ) + ((255 : ℚ) - c) * (2/5)) := by
    intro c hc
    have hc' : (c : ℚ) ≤ 255 := by exact_mod_cast hc
    refine clampZ_eq_self (pyRound_nonneg (by nlinarith [Nat.cast_nonneg (α := ℚ) c]))
      (pyRound_le_of_le (by nlinarith))
  have hD : adjust_color_toward (r, g, b) true (2/5) =
      ((pyRound ((r : ℚ) * (3/5))).toNat, (pyRound ((g : ℚ) * (3/5))).toNat,
       (pyRound ((b : ℚ) * (3/5))).toNat) := by
    unfold adjust_color_toward
    simp only [eq_self_iff_true, if_true]
    rw [dark r hr, dark g hg, dark b hb]
  have hL : adjust_color_toward (r, g, b) false (2/5) =
      ((pyRound ((r : ℚ) + ((255 : ℚ) - r) * (2/5))).toNat,
       (pyRound ((g : ℚ) + ((255 : ℚ) - g) * (2/5))).toNat,
       (pyRound ((b : ℚ) + ((255 : ℚ) - b) * (2/5))).toNat) := by
    unfold adjust_color_toward
    simp only [Bool.false_eq_true, if_false]
    rw [light r hr, light g hg, light b hb]
  refine ⟨hD, hL, ?_, ?_⟩
  · rw [hD]
    have hr' : (r : ℚ) ≤ 255 := by exact_mod_cast hr
    have : pyRound ((r : ℚ) * (3/5)) ≤ 255 := pyRound_le_of_le (by nlinarith)
    omega
  · rw [hL]
    have hr' : (r : ℚ) ≤ 255 := by exact_mod_cast hr
    have : pyRound ((r : ℚ) + ((255 : ℚ) - r) * (2/5)) ≤ 255 :=
      pyRound_le_of_le (by nlinarith)
    omega


/-- C2 witness: the general channel law of the amended theorem evaluated at
the concrete color (10, 20, 30). -/

theorem adjust_color_c2_witness :
    adjust_color_toward (10, 20, 30) true (2/5) = (6, 12, 18) := by
  have h := (adjust_color_c2_amended.2.2 10 20 30 (by norm_num) (by norm_num)
    (by norm_num)).1
  rw [h]
  decide


/-! ### C5: override-mode geometry -/

/-- C5 counterexample: with `n = 0` and `qz = 0` the square 1×1 image makes
override mode divide by zero, so it fails (and not with the non-square
`InvalidInput` condition) even though the image is square. -/

theorem geo_override_c5_counterexample :
    geo_from_exact_dims 1 1 0 0 = .error .zeroDivision ∧
    geo_from_exact_dims 1 1 0 0 ≠ .error .invalidInput := by
  decide


/-- C5 (amended): override mode fails with `InvalidInput` exactly on
non-square images; on a square image it succeeds whenever `n + 2·qz > 0`
(with `n + 2·qz = 0` it instead raises a division-by-zero error), returning
`module_px = W / (n + 2·qz)` exactly, `thresh = 128` and `dark_is_lt = true`. -/

theorem geo_override_c5_amended (W H n qz : ℕ) :
    (geo_from_exact_dims W H n qz = .error .invalidInput ↔ W ≠ H) ∧
    (W = H → 0 < n + 2 * qz →
      ∃ geo, geo_from_exact_dims W H n qz = .ok geo ∧
        geo.module_px = (W : ℚ) / (n + 2 * qz) ∧
        geo.thresh = 128 ∧ geo.dark_is_lt = true ∧
        geo.n_modules = n ∧ geo.qz_modules = qz) := by
  unfold geo_from_exact_dims
  by_cases hsq : W ≠ H
  · rw [if_pos hsq]
    exact ⟨⟨fun _ => hsq, fun _ => rfl⟩, fun heq => absurd heq hsq⟩
  · rw [if_neg hsq]
    push_neg at hsq
    constructor
    · simp only [ne_eq, hsq, not_true_eq_false, iff_false]
      split <;> simp
    · intro _ hpos
      rw [if_neg (by omega)]
      exact ⟨_, rfl, by push_cast [QRGeometry.module_px]; ring, rfl, rfl, rfl, rfl⟩


/-- C5 witness: the amended success law at `W = H = 10`, `n = 1`, `qz = 2`. -/

theorem geo_override_c5_witness :
    ∃ geo, geo_from_exact_dims 10 10 1 2 = .ok geo ∧
      geo.module_px = ((10 : ℕ) : ℚ) / ((1 + 2 * 2 : ℕ) : ℚ) ∧
      geo.thresh = 128 ∧ geo.dark_is_lt = true ∧
      geo.n_modules = 1 ∧ geo.qz_modules = 2 :=
  (geo_override_c5_amended 10 10 1 2).2 rfl (by norm_num)


/-! ### C7: skip_finders is inert -/

/-- C7: two runs of the overlay builder that differ only in `skip_finders`
produce identical geometry and draw operations — the parameter is threaded in
but never read, and the finder-vs-mini-square branch depends on the module
position alone. -/

theorem skip_finders_inert (qr logo : Img) (mo qo : Option ℕ) (sf : ℚ)
    (radius tl : ℕ) (tq : Option ℕ) (alpha : ℕ) :
    build_overlay_ops qr logo mo qo sf radius tl tq true alpha =
      build_overlay_ops qr logo mo qo sf radius tl tq false alpha := rfl


/-! ### C9: neighbor-search order of pick_logo_color -/

theorem intRange_nodup (radius : ℕ) : (intRange radius).Nodup := by
  unfold intRange
  exact List.Nodup.map (f := fun i : ℕ => (i : ℤ) - radius)
    (fun a b hab => by dsimp only at hab; omega) (List.nodup_range _)


theorem offset_list_nodup (radius : ℕ) : (offset_list radius).Nodup := by
  unfold offset_list
  rw [List.nodup_flatMap]
  constructor
  · intro dr _
    refine List.Nodup.filterMap ?_ (intRange_nodup radius)
    intro dc dc' o hc hc'
    rw [Option.mem_def] at hc hc'
    split at hc
    · exact absurd hc (by simp)
    · split at hc'
      · exact absurd hc' (by simp)
      · have h1 := Option.some.inj hc
        have h2 := Option.some.inj hc'
        exact congrArg (fun p => p.2.1) (h1.trans h2.symm)
  · have hpw : (intRange radius).Pairwise (· ≠ ·) := intRange_nodup radius
    refine hpw.imp ?_
    intro dr dr' hne o ho ho'
    rw [List.mem_filterMap] at ho ho'
    obtain ⟨dc, _, hc⟩ := ho
    obtain ⟨dc', _, hc'⟩ := ho'
    split at hc
    · exact absurd hc (by simp)
    · split at hc'
      · exact absurd hc' (by simp)
      · have e1 := congrArg Prod.fst (Option.some.inj hc)
        have e2 := congrArg Prod.fst (Option.some.inj hc')
        exact hne (e1.trans e2.symm)


/-- In a duplicate-free list, two distinct members appear in one of the two
relative orders, as a pair sublist. -/

theorem nodup_mem_pair_sublist {α : Type _} {a b : α} :
    ∀ {l : List α}, l.Nodup → a ∈ l → b ∈ l → a ≠ b →
      List.Sublist [a, b] l ∨ List.Sublist [b, a] l := by
  intro l
  induction l with
  | nil =>
    intro _ ha
    exact absurd ha (List.not_mem_nil a)
  | cons x xs ih =>
    intro hnd ha hb hab
    by_cases hax : a = x
    · subst hax
      have hb' : b ∈ xs := by
        rcases List.mem_cons.1 hb with h | h
        · exact absurd h.symm hab
        · exact h
      exact Or.inl (List.Sublist.cons₂ a (List.singleton_sublist.mpr hb'))
    · by_cases hbx : b = x
      · subst hbx
        have ha' : a ∈ xs := by
          rcases List.mem_cons.1 ha with h | h
          · exact absurd h hax
          · exact h
        exact Or.inr (List.Sublist.cons₂ b (List.singleton_sublist.mpr ha'))
      · have ha' : a ∈ xs := by
          rcases List.mem_cons.1 ha with h | h
          · exact absurd h hax
          · exact h
        have hb' : b ∈ xs := by
          rcases List.mem_cons.1 hb with h | h
          · exact absurd h hbx
          · exact h
        rcases ih hnd.of_cons ha' hb' hab with h | h
        · exact Or.inl (h.cons x)
        · exact Or.inr (h.cons x)


/-- If `[a, b]` is a sublist of a duplicate-free `l₁ ++ b :: l₂` with
`a ≠ b`, then `a` lies in the prefix `l₁`. -/

theorem mem_left_of_pair_sublist {α : Type _} {a b : α} :
    ∀ {l₁ : List α} {l₂ : List α}, (l₁ ++ b :: l₂).Nodup → a ≠ b →
      List.Sublist [a, b] (l₁ ++ b :: l₂) → a ∈ l₁ := by
  intro l₁
  induction l₁ with
  | nil =>
    intro l₂ hnd hab hs
    simp only [List.nil_append] at hs hnd
    exfalso
    cases hs with
    | cons _ h =>
      have hbmem : b ∈ l₂ := (List.Sublist.subset h) (by simp)
      exact (List.nodup_cons.1 hnd).1 hbmem
    | cons₂ _ h =>
      exact absurd rfl hab
  | cons x xs ih =>
    intro l₂ hnd hab hs
    rw [List.cons_append] at hs hnd
    cases hs with
    | cons _ h => exact List.mem_cons_of_mem x (ih (List.nodup_cons.1 hnd).2 hab h)
    | cons₂ _ h => exact List.mem_cons_self ..


/-- C9: the picker returns the center pixel exactly when its classification
matches; with radius 0 there is no neighbor search; otherwise the search
scans the offsets by ascending squared distance, so a returned pixel comes
from an offset no farther than any other in-bounds matching offset, with
equal-distance ties resolved in favor of the offset generated earlier in the
deterministic row-major enumeration (expressed as the pair `[o, o']` being a
sublist of the generation-order list); and `none` is returned only when no
offset matches. -/

theorem pick_logo_color_c9 (logo : Img) (lw lh total qz row col : ℕ)
    (want_dark : Bool) (thr radius : ℕ) :
    (is_dark_rgba (centerPixAt logo lw lh total ((row : ℤ) + qz) ((col : ℤ) + qz)) thr
        = want_dark →
      pick_logo_color logo lw lh total qz row col want_dark thr radius =
        some (centerPixAt logo lw lh total ((row : ℤ) + qz) ((col : ℤ) + qz))) ∧
    (radius = 0 →
      is_dark_rgba (centerPixAt logo lw lh total ((row : ℤ) + qz) ((col : ℤ) + qz)) thr
        ≠ want_dark →
      pick_logo_color logo lw lh total qz row col want_dark thr radius = none) ∧
    (is_dark_rgba (centerPixAt logo lw lh total ((row : ℤ) + qz) ((col : ℤ) + qz)) thr
        ≠ want_dark →
      pick_logo_color logo lw lh total qz row col want_dark thr radius = none →
      ∀ o ∈ offset_list radius,
        neighborCheck logo lw lh total want_dark thr ((row : ℤ) + qz) ((col : ℤ) + qz) o
          = none) ∧
    (is_dark_rgba (centerPixAt logo lw lh total ((row : ℤ) + qz) ((col : ℤ) + qz)) thr
        ≠ want_dark →
      ∀ p, pick_logo_color logo lw lh total qz row col want_dark thr radius = some p →
        ∃ o ∈ offset_list radius,
          neighborCheck logo lw lh total want_dark thr ((row : ℤ) + qz) ((col : ℤ) + qz) o
            = some p ∧
          (∀ o' ∈ offset_list radius,
            (neighborCheck logo lw lh total want_dark thr ((row : ℤ) + qz)
              ((col : ℤ) + qz) o').isSome → o.2.2 ≤ o'.2.2) ∧
          (∀ o' ∈ offset_list radius,
            (neighborCheck logo lw lh total want_dark thr ((row : ℤ) + qz)
              ((col : ℤ) + qz) o').isSome → o'.2.2 = o.2.2 →
            o' = o ∨ List.Sublist [o, o'] (offset_list radius))) := by
  have hsplit : ∀ _ : is_dark_rgba (centerPixAt logo lw lh total ((row : ℤ) + qz)
      ((col : ℤ) + qz)) thr ≠ want_dark,
      pick_logo_color logo lw lh total qz row col want_dark thr radius =
        (sorted_offsets radius).findSome?
          (neighborCheck logo lw lh total want_dark thr ((row : ℤ) + qz)
            ((col : ℤ) + qz)) := by
    intro hne
    unfold pick_logo_color
    dsimp only
    rw [if_neg hne]
  refine ⟨?_, ?_, ?_, ?_⟩
  · intro hok
    unfold pick_logo_color
    dsimp only
    rw [if_pos hok]
  · intro h0 hne
    subst h0
    rw [hsplit hne]
    rfl
  · intro hne hnone o ho
    rw [hsplit hne] at hnone
    rw [List.findSome?_eq_none_iff] at hnone
    exact hnone o ((List.mem_insertionSort (r := offLE)).mpr ho)
  · intro hne p hp
    rw [hsplit hne] at hp
    rw [List.findSome?_eq_some_iff] at hp
    obtain ⟨l₁, o, l₂, hdec, hfo, hnone₁⟩ := hp
    have hsorted : (sorted_offsets radius).Sorted offLE :=
      List.sorted_insertionSort offLE _
    have hnodup : (sorted_offsets radius).Nodup :=
      (List.perm_insertionSort offLE (offset_list radius)).nodup_iff.mpr
        (offset_list_nodup radius)
    have homem : o ∈ offset_list radius := by
      rw [← List.mem_insertionSort (r := offLE)]
      show o ∈ sorted_offsets radius
      rw [hdec]
      exact List.mem_append_right _ (List.mem_cons_self ..)
    have htail : (o :: l₂).Sorted offLE := by
      have hsb : List.Sublist (o :: l₂) (sorted_offsets radius) := by
        rw [hdec]
        exact List.sublist_append_right l₁ (o :: l₂)
      exact List.Pairwise.sublist hsb hsorted
    refine ⟨o, homem, hfo, ?_, ?_⟩
    · intro o' ho' hsome'
      have ho's : o' ∈ sorted_offsets radius := (List.mem_insertionSort (r := offLE)).mpr ho'
      rw [hdec] at ho's
      rcases List.mem_append.1 ho's with hmem | hmem
      · exfalso
        have hz := hnone₁ o' hmem
        rw [hz] at hsome'
        simp at hsome'
      · rcases List.mem_cons.1 hmem with heq | hmem₂
        · rw [heq]
        · exact List.rel_of_sorted_cons htail o' hmem₂
    · intro o' ho' hsome' heq2
      by_cases hoo : o' = o
      · exact Or.inl hoo
      · right
        rcases nodup_mem_pair_sublist (offset_list_nodup radius) homem ho'
            (fun h => hoo h.symm) with hsub | hsub
        · exact hsub
        · exfalso
          have hle : offLE o' o := le_of_eq heq2
          have hps : List.Sublist [o', o] (sorted_offsets radius) :=
            List.pair_sublist_insertionSort hle hsub
          rw [hdec] at hps hnodup
          have hmem₁ : o' ∈ l₁ := mem_left_of_pair_sublist hnodup hoo hps
          have hz := hnone₁ o' hmem₁
          rw [hz] at hsome'
          simp at hsome'


/-- C9 witness: on the 3×3 logo with a single dark pixel, wanting dark at
the center module finds the dark up-neighbor, at a squared distance no
farther than any other matching offset. -/

theorem pick_logo_color_c9_witness :
    ∃ o ∈ offset_list 1,
      neighborCheck exLogoC9 3 3 3 true 145 ((1 : ℤ) + (0 : ℕ)) ((1 : ℤ) + (0 : ℕ)) o
        = some ⟨10, 10, 10, 255⟩ ∧
      (∀ o' ∈ offset_list 1,
        (neighborCheck exLogoC9 3 3 3 true 145 ((1 : ℤ) + (0 : ℕ))
          ((1 : ℤ) + (0 : ℕ)) o').isSome → o.2.2 ≤ o'.2.2) ∧
      (∀ o' ∈ offset_list 1,
        (neighborCheck exLogoC9 3 3 3 true 145 ((1 : ℤ) + (0 : ℕ))
          ((1 : ℤ) + (0 : ℕ)) o').isSome → o'.2.2 = o.2.2 →
        o' = o ∨ List.Sublist [o, o'] (offset_list 1)) :=
  (pick_logo_color_c9 exLogoC9 3 3 3 0 1 1 true 145 1).2.2.2 (by decide)
    ⟨10, 10, 10, 255⟩ (by decide)


/-! ### C10: alpha gating in pick_logo_color -/

/-- C10: a near-transparent (alpha < 10) center pixel is classified light,
so when the desired darkness is light the picker returns that pixel at once,
without the neighbor search and without any alpha ≥ 10 requirement; the
alpha gate applies only to pixels returned by the neighbor loop. -/

theorem pick_logo_color_c10 (logo : Img) (lw lh total qz row col thr radius : ℕ)
    (ha : (centerPixAt logo lw lh total ((row : ℤ) + qz) ((col : ℤ) + qz)).a < 10) :
    is_dark_rgba (centerPixAt logo lw lh total ((row : ℤ) + qz) ((col : ℤ) + qz)) thr
      = false ∧
    pick_logo_color logo lw lh total qz row col false thr radius =
      some (centerPixAt logo lw lh total ((row : ℤ) + qz) ((col : ℤ) + qz)) := by
  have h1 : is_dark_rgba (centerPixAt logo lw lh total ((row : ℤ) + qz)
      ((col : ℤ) + qz)) thr = false := by
    unfold is_dark_rgba
    rw [if_pos ha]
  refine ⟨h1, ?_⟩
  simp [pick_logo_color, h1]


/-- C10 witness: on the transparent 1×1 logo, wanting light returns the
center pixel immediately. -/

theorem pick_logo_color_c10_witness :
    is_dark_rgba (centerPixAt exLogoT 1 1 1 ((0 : ℤ) + (0 : ℕ)) ((0 : ℤ) + (0 : ℕ)))
      145 = false ∧
    pick_logo_color exLogoT 1 1 1 0 0 0 false 145 2 =
      some (centerPixAt exLogoT 1 1 1 ((0 : ℤ) + (0 : ℕ)) ((0 : ℤ) + (0 : ℕ))) :=
  pick_logo_color_c10 exLogoT 1 1 1 0 0 0 145 2 (by decide)


end QROverlay
